import Mathlib

/-!
# QuantaPath TSP solver: a shallow embedding

This file embeds the core of `scripts/qaoa_solver.py` (QuantaPath) in Lean 4:

* `tspInit` — `TSPQUBOFormulation.__init__` (penalty auto-calculation);
* `create_qubo` — `TSPQUBOFormulation.create_qubo` (QUBO construction
  with cost term, two one-hot penalty families and a constant offset);
* `decode_solution` — `TSPQUBOFormulation.decode_solution`;
* `solve_tsp` — the hybrid orchestration, parametrised by the outputs of
  the two optimisation backends (SciPy dual annealing and Qiskit QAOA are
  external processes: each is modelled by the `Option BackendResult` it
  hands back, `none` standing for a skipped/unavailable backend).

Python `dict`s are modelled as `κ → Option ℚ`: literal assignment
`d[k] = v` is `dinsert`, read-with-default `d.get(k, 0.0)` is `dget0`,
accumulation `d[k] = d.get(k, 0.0) + v` is `daccum`, and `d1.update(d2)`
is `dupdate` (entries of `d2` win).  Python floats are modelled as `ℚ`
(all arithmetic used by the claims is exact), `float('inf')` as `⊤ : WithTop ℚ`.
Raised exceptions are modelled with `Except String`.
-/

instance {ε α : Type} [DecidableEq ε] [DecidableEq α] : DecidableEq (Except ε α) := fun a b =>
  match a, b with
  | .error e1, .error e2 =>
      if h : e1 = e2 then .isTrue (by rw [h]) else .isFalse (by simp [h])
  | .error _, .ok _ => .isFalse (by simp)
  | .ok _, .error _ => .isFalse (by simp)
  | .ok v1, .ok v2 =>
      if h : v1 = v2 then .isTrue (by rw [h]) else .isFalse (by simp [h])

/-- A Python `dict` with keys `κ` and values `α`: a partial map. -/
def Dict (κ α : Type) : Type := κ → Option α

/-- The empty dict `{}`. -/
def dempty {κ α : Type} : Dict κ α := fun _ => none

/-- `d[k] = v` — plain assignment, overwriting any previous entry. -/
def dinsert {κ α : Type} [DecidableEq κ] (d : Dict κ α) (k : κ) (v : α) : Dict κ α :=
  fun k' => if k' = k then some v else d k'

/-- `d.get(k, 0.0)` — lookup with default `0`. -/
def dget0 {κ : Type} (d : Dict κ ℚ) (k : κ) : ℚ := (d k).getD 0

/-- `d[k] = d.get(k, 0.0) + v` — accumulate a contribution onto `k`. -/
def daccum {κ : Type} [DecidableEq κ] (d : Dict κ ℚ) (k : κ) (v : ℚ) : Dict κ ℚ :=
  dinsert d k (dget0 d k + v)

/-- `d1.update(d2)` — right-biased merge: entries of `d2` overwrite `d1`. -/
def dupdate {κ α : Type} (d1 d2 : Dict κ α) : Dict κ α :=
  fun k => match d2 k with
    | some v => some v
    | none => d1 k

/-- The total value contributed to key `k` by a list of keyed contributions. -/
def sumAt {κ : Type} [DecidableEq κ] (l : List (κ × ℚ)) (k : κ) : ℚ :=
  (l.map fun e => if e.1 = k then e.2 else 0).sum

/-- The keys of a contribution list. -/
def keysOf {κ α : Type} (l : List (κ × α)) : List κ := l.map Prod.fst

/-! ## The formulation object (`TSPQUBOFormulation`) -/

/-- The state of a `TSPQUBOFormulation` after `__init__`. -/
structure TSPQUBOFormulation where
  distance_matrix : List (List ℚ)
  n : Nat
  penalty : ℚ
deriving DecidableEq

/-- All entries of the matrix in row-major order (how `np.max` reduces a 2-D array). -/
def dmElems (dm : List (List ℚ)) : List ℚ := dm.flatMap id

/-- `np.max(distance_matrix)`: the maximum entry; `ValueError` on a zero-size array. -/
def npMax (dm : List (List ℚ)) : Except String ℚ :=
  match dmElems dm with
  | [] => .error "zero-size array to reduction operation maximum which has no identity"
  | e :: rest => .ok (rest.foldl max e)

/-- `distance_matrix[i][j]` (indices in range for the accesses the code performs). -/
def dmGet (dm : List (List ℚ)) (i j : Nat) : ℚ := ((dm.getD i []).getD j 0)

/-- `TSPQUBOFormulation.__init__`: stores the matrix, sets `n = len(distance_matrix)`,
computes `max_dist = np.max(distance_matrix)` and then
`penalty if penalty is not None else 2 * n * max_dist`, replacing a zero
penalty by `1000`.  No validation of the matrix is performed. -/
def tspInit (dm : List (List ℚ)) (penalty : Option ℚ) : Except String TSPQUBOFormulation := do
  let n := dm.length
  let maxDist ← npMax dm
  let p0 : ℚ := match penalty with
    | some p => p
    | none => 2 * (n : ℚ) * maxDist
  let p : ℚ := if p0 = 0 then 1000 else p0
  pure ⟨dm, n, p⟩

/-- `get_variable_index(city, position) = city * n + position`. -/
def get_variable_index (n city position : Nat) : Nat := city * n + position

/-! ## `create_qubo` -/

/-- The writes performed while building `cost_objective`: for every ordered pair of
distinct cities `(i, j)` and every position `p`, the key
`(idx(i,p), idx(j,(p+1) % n))` receives the value `distance_matrix[i, j]`
(plain dict assignment). -/
def costContribs (n : Nat) (d : Nat → Nat → ℚ) : List ((Nat × Nat) × ℚ) :=
  (List.range n).flatMap fun i =>
    (List.range n).flatMap fun j =>
      if i = j then []
      else (List.range n).map fun p =>
        ((get_variable_index n i p, get_variable_index n j ((p + 1) % n)), d i j)

/-- Linear contributions of constraint 1 (each city visited exactly once):
`-2 * penalty` onto `idx(i, p)` for every city `i` and position `p`. -/
def linContribs1 (n : Nat) (P : ℚ) : List (Nat × ℚ) :=
  (List.range n).flatMap fun i =>
    (List.range n).map fun p => (get_variable_index n i p, -(2 * P))

/-- Quadratic contributions of constraint 1: `+penalty` onto
`(idx(i,p), idx(i,q))` for every city `i` and positions `p, q`. -/
def quadContribs1 (n : Nat) (P : ℚ) : List ((Nat × Nat) × ℚ) :=
  (List.range n).flatMap fun i =>
    (List.range n).flatMap fun p =>
      (List.range n).map fun q =>
        ((get_variable_index n i p, get_variable_index n i q), P)

/-- Linear contributions of constraint 2 (each position filled exactly once):
`-2 * penalty` onto `idx(i, p)` for every position `p` and city `i`. -/
def linContribs2 (n : Nat) (P : ℚ) : List (Nat × ℚ) :=
  (List.range n).flatMap fun p =>
    (List.range n).map fun i => (get_variable_index n i p, -(2 * P))

/-- Quadratic contributions of constraint 2: `+penalty` onto
`(idx(i,p), idx(j,p))` for every position `p` and cities `i, j`. -/
def quadContribs2 (n : Nat) (P : ℚ) : List ((Nat × Nat) × ℚ) :=
  (List.range n).flatMap fun p =>
    (List.range n).flatMap fun i =>
      (List.range n).map fun j =>
        ((get_variable_index n i p, get_variable_index n j p), P)

/-- The `QuadraticProgram` contents relevant to the energy: the linear map, the
quadratic map and the constant offset. -/
structure QuadraticProgram where
  linear : Dict Nat ℚ
  quadratic : Dict (Nat × Nat) ℚ
  constant : ℚ

/-- `TSPQUBOFormulation.create_qubo`: builds `cost_objective` by plain dict
assignment, assigns it to the objective's quadratic part; accumulates the two
penalty families into `linear_penalty` / `quadratic_penalty` with
`d.get(k, 0.0) + v`; merges those into the objective with `dict.update`
semantics; sets the constant to `2 * n * penalty`. -/
def create_qubo (f : TSPQUBOFormulation) : QuadraticProgram :=
  let n := f.n
  let P := f.penalty
  let cost : Dict (Nat × Nat) ℚ :=
    (costContribs n (dmGet f.distance_matrix)).foldl (fun d e => dinsert d e.1 e.2) dempty
  let linPen : Dict Nat ℚ :=
    (linContribs1 n P ++ linContribs2 n P).foldl (fun d e => daccum d e.1 e.2) dempty
  let quadPen : Dict (Nat × Nat) ℚ :=
    (quadContribs1 n P ++ quadContribs2 n P).foldl (fun d e => daccum d e.1 e.2) dempty
  { linear := dupdate dempty linPen
    quadratic := dupdate cost quadPen
    constant := 2 * (n : ℚ) * P }

/-- The energy of an assignment `x` under a quadratic program with `nv` variables
(the invariant of the QUBO data model): constant plus the linear terms of set
variables plus the quadratic terms of set pairs, each stored entry counted once. -/
def Qenergy (qp : QuadraticProgram) (nv : Nat) (x : Nat → ℚ) : ℚ :=
  qp.constant
    + ∑ a ∈ Finset.range nv, dget0 qp.linear a * x a
    + ∑ a ∈ Finset.range nv, ∑ b ∈ Finset.range nv, dget0 qp.quadratic (a, b) * x a * x b

/-- The pure cost contribution of an assignment: for every ordered pair of distinct
cities and every position, the distance weighted by the two involved variables. -/
def costValue (n : Nat) (d : Nat → Nat → ℚ) (x : Nat → ℚ) : ℚ :=
  ∑ i ∈ Finset.range n, ∑ j ∈ Finset.range n,
    if i = j then 0
    else ∑ p ∈ Finset.range n,
      d i j * x (get_variable_index n i p) * x (get_variable_index n j ((p + 1) % n))

/-! ## `decode_solution` -/

/-- The outcome of `decode_solution`: the tour, the feasibility flag and the
violations dictionary `{"pos": …, "city": …}`. -/
structure DecodeOut where
  tour : List Nat
  feasible : Bool
  posViolations : Nat
  cityViolations : Nat
deriving DecidableEq

/-- The numeric value of a decimal digit character. -/
def digitVal (c : Char) : Nat := c.toNat - 48

/-- Python `int(b)` for a single character `b`: the digit's value, or a
`ValueError` for a non-digit. -/
def pyIntChar (c : Char) : Except String Nat :=
  if c.isDigit then .ok (digitVal c) else .error "invalid literal for int() with base 10"

/-- `x_matrix[i, p]` after `reshape(n, n)` of the converted bit list. -/
def bitAt (bits : List Nat) (n i p : Nat) : Nat := bits.getD (i * n + p) 0

/-- `np.sum(x_matrix[:, p])` — the column sum at position `p`. -/
def colSum (bits : List Nat) (n p : Nat) : Nat := ∑ i ∈ Finset.range n, bitAt bits n i p

/-- `np.sum(x_matrix[i, :])` — the row sum at city `i`. -/
def rowSum (bits : List Nat) (n i : Nat) : Nat := ∑ p ∈ Finset.range n, bitAt bits n i p

/-- `violations["pos"]`: the number of positions whose column sum is not 1
(`np.isclose` on integer sums is exact equality). -/
def posViolCount (bits : List Nat) (n : Nat) : Nat :=
  (List.range n).countP fun p => colSum bits n p != 1

/-- `violations["city"]`: the number of cities whose row sum is not 1. -/
def cityViolCount (bits : List Nat) (n : Nat) : Nat :=
  (List.range n).countP fun i => rowSum bits n i != 1

/-- `np.where(x_matrix[:, p] == 1)[0][0]` guarded by `len > 0`: the least city
whose bit at position `p` is set, `0` (the untouched `tour_array` cell) if none. -/
def findCity (bits : List Nat) (n p : Nat) : Nat :=
  ((List.range n).find? fun i => bitAt bits n i p == 1).getD 0

/-- The body of `decode_solution` after the bit conversion: count violations,
decide feasibility, and if feasible read the city at each position and close the
cycle by appending the first city. -/
def decodeBits (n : Nat) (bits : List Nat) : DecodeOut :=
  let pv := posViolCount bits n
  let cv := cityViolCount bits n
  let feasible := pv == 0 && cv == 0
  let tour : List Nat :=
    if feasible then
      let ta := (List.range n).map (findCity bits n)
      ta ++ [ta.headD 0]
    else []
  ⟨tour, feasible, pv, cv⟩

/-- `[int(b) for b in bitstring]`: convert every character left to right, the
first failing conversion raising. -/
def mapPyInt : List Char → Except String (List Nat)
  | [] => .ok []
  | c :: cs =>
    match pyIntChar c with
    | .error e => .error e
    | .ok b =>
      match mapPyInt cs with
      | .error e => .error e
      | .ok bs => .ok (b :: bs)

/-- `TSPQUBOFormulation.decode_solution`: `ValueError` when the length is not
`n * n`; converts each character with `int(b)` (`ValueError` on a non-digit);
then decodes and checks feasibility. -/
def decode_solution (n : Nat) (bs : List Char) : Except String DecodeOut :=
  if bs.length ≠ n * n then
    .error "Bitstring length is incorrect for this TSP size."
  else
    match mapPyInt bs with
    | .error e => .error e
    | .ok bits => .ok (decodeBits n bits)

/-! ## `solve_tsp` (hybrid orchestration) -/

/-- The `mode` argument of `solve_tsp`. -/
inductive Mode where
  | classical
  | quantum
  | hybrid
deriving DecidableEq

/-- What an optimisation backend hands back: the sampled bitstring and its
reported energy. -/
structure BackendResult where
  bitstring : List Char
  energy : ℚ
deriving DecidableEq

/-- The `best_solution` dictionary of `solve_tsp` (the fields the claims are
about; `length` and `energy` live in `WithTop ℚ` because the initial sentinel
uses `float('inf')`; `violations` is `none` until a backend result is recorded,
as the initial dictionary has no `violations` key). -/
structure SolverResult where
  tour : List Nat
  length : WithTop ℚ
  feasible : Bool
  violations : Option (Nat × Nat)
  energy : WithTop ℚ
  bitstring : List Char
  solver : String
deriving DecidableEq

/-- The initial `best_solution` sentinel of `solve_tsp`. -/
def initialBest : SolverResult :=
  ⟨[], ⊤, false, none, ⊤, [], "None"⟩

/-- `for i in range(len(tour) - 1): tour_length += dist_matrix[tour[i], tour[i+1]]`. -/
def tourLength (dm : List (List ℚ)) (tour : List Nat) : ℚ :=
  (List.range (tour.length - 1)).foldl
    (fun s i => s + dmGet dm (tour.getD i 0) (tour.getD (i + 1) 0)) 0

/-- The `best_solution` dictionary recorded for a backend's decoded result:
`tour_length` is summed only when feasible (it stays `0` otherwise) and is
stored as the `length` either way. -/
def recordResult (dm : List (List ℚ)) (r : BackendResult) (dec : DecodeOut)
    (name : String) : SolverResult :=
  let len : ℚ := if dec.feasible then tourLength dm dec.tour else 0
  ⟨dec.tour, (len : WithTop ℚ), dec.feasible,
    some (dec.posViolations, dec.cityViolations), (r.energy : WithTop ℚ),
    r.bitstring, name⟩

/-- `solve_tsp`: builds the formulation (and the QUBO handed to the backends),
runs the classical backend in `classical`/`hybrid` mode and records its result
unconditionally, then runs the quantum backend in `quantum`/`hybrid` mode and
replaces the best solution only when the quantum result is feasible and strictly
shorter, or when no classical result was recorded (`solver == "None"`).
The two backends are external processes; each is modelled by the `Option
BackendResult` it produced, `none` standing for a skipped backend (missing
SciPy/Qiskit). Exceptions from decoding propagate. -/
def solve_tsp (dm : List (List ℚ)) (mode : Mode) (penalty : Option ℚ)
    (classicalOutcome quantumOutcome : Option BackendResult) :
    Except String SolverResult := do
  let f ← tspInit dm penalty
  let _qp := create_qubo f
  let best0 := initialBest
  let best1 ←
    if mode = Mode.classical ∨ mode = Mode.hybrid then
      match classicalOutcome with
      | none => pure best0
      | some r => do
          let dec ← decode_solution f.n r.bitstring
          pure (recordResult dm r dec "classical")
    else pure best0
  let best2 ←
    if mode = Mode.quantum ∨ mode = Mode.hybrid then
      match quantumOutcome with
      | none => pure best1
      | some r => do
          let dec ← decode_solution f.n r.bitstring
          let tl : ℚ := if dec.feasible then tourLength dm dec.tour else 0
          if dec.feasible = true ∧ ((tl : WithTop ℚ) < best1.length) then
            pure (recordResult dm r dec "quantum")
          else if best1.solver = "None" then
            pure (recordResult dm r dec "quantum")
          else
            pure best1
    else pure best1
  pure best2

/-! ## Helper lemmas -/

theorem foldl_max_mem {α : Type} [LinearOrder α] (l : List α) (e : α) :
    l.foldl max e ∈ e :: l := by
  induction l generalizing e with
  | nil => simp
  | cons a l ih =>
    simp only [List.foldl_cons]
    have h := ih (max e a)
    rcases max_choice e a with hm | hm <;> rw [hm] at h ⊢ <;>
      rcases List.mem_cons.mp h with h1 | h1 <;> simp [h1]

theorem dmElems_cons_of_two_le (dm : List (List ℚ)) (hn : 2 ≤ dm.length)
    (hsq : ∀ row ∈ dm, row.length = dm.length) :
    ∃ e rest, dmElems dm = e :: rest := by
  match dm, hn with
  | (a :: r) :: rows, _ =>
    exact ⟨a, r ++ rows.flatMap id, by simp [dmElems]⟩
  | [] :: rows, hn =>
    have h0 := hsq [] (by simp)
    simp only [List.length_nil, List.length_cons] at h0
    omega

theorem mapPyInt_ok_of_digits (bs : List Char) (h : ∀ c ∈ bs, c.isDigit) :
    mapPyInt bs = .ok (bs.map digitVal) := by
  induction bs with
  | nil => rfl
  | cons c cs ih =>
    have hc : c.isDigit := h c (by simp)
    have hcs := ih fun x hx => h x (by simp [hx])
    simp [mapPyInt, pyIntChar, hc, hcs]

theorem mapPyInt_error_iff (bs : List Char) :
    (∃ e, mapPyInt bs = .error e) ↔ ∃ c ∈ bs, ¬ c.isDigit := by
  induction bs with
  | nil => simp [mapPyInt]
  | cons c cs ih =>
    by_cases hc : c.isDigit
    · cases hcs : mapPyInt cs with
      | error e =>
          have : ∃ e, mapPyInt cs = .error e := ⟨e, hcs⟩
          rw [ih] at this
          obtain ⟨x, hx, hxd⟩ := this
          simp only [mapPyInt, pyIntChar, hc, if_true, hcs]
          constructor
          · intro _; exact ⟨x, by simp [hx], hxd⟩
          · intro _; exact ⟨e, rfl⟩
      | ok v =>
          have hno : ¬ ∃ e, mapPyInt cs = .error e := by simp [hcs]
          rw [ih] at hno
          simp only [mapPyInt, pyIntChar, hc, if_true, hcs]
          constructor
          · rintro ⟨e, he⟩; cases he
          · rintro ⟨x, hx, hxd⟩
            rcases List.mem_cons.mp hx with h1 | h1
            · exact absurd hc (h1 ▸ hxd)
            · exact absurd ⟨x, h1, hxd⟩ hno
    · simp only [mapPyInt, pyIntChar, hc, if_false]
      constructor
      · intro _; exact ⟨c, by simp, hc⟩
      · intro _; exact ⟨_, rfl⟩

/-! ## Claim theorems -/

/-- **C1** (code bug): on the 2-city matrix `[[0,1],[1,0]]`, with the classical
backend returning the infeasible bitstring `0000` and the quantum backend the
feasible bitstring `1001` (tour `0 → 1 → 0` of length 2), the hybrid
orchestration returns the classical **infeasible** result (recorded with
`length = 0.0`), not the feasible quantum one: `tour_length < best_length`
compares `2 < 0.0` because the infeasible classical attempt was stored with
length `0.0` instead of the `inf` sentinel. -/
theorem c1_hybrid_returns_infeasible_over_feasible :
    solve_tsp [[0, 1], [1, 0]] Mode.hybrid none
      (some ⟨['0', '0', '0', '0'], 0⟩) (some ⟨['1', '0', '0', '1'], 0⟩) =
      .ok ⟨[], ((0 : ℚ) : WithTop ℚ), false, some (2, 2), ((0 : ℚ) : WithTop ℚ),
        ['0', '0', '0', '0'], "classical"⟩ ∧
    decode_solution 2 ['1', '0', '0', '1'] = .ok ⟨[0, 1, 0], true, 0, 0⟩ := by
  have h1 : decode_solution 2 ['0', '0', '0', '0'] = .ok ⟨[], false, 2, 2⟩ := by decide
  have h2 : decode_solution 2 ['1', '0', '0', '1'] = .ok ⟨[0, 1, 0], true, 0, 0⟩ := by decide
  have hs : "classical" ≠ "None" := by decide
  refine ⟨?_, h2⟩
  norm_num [hs, solve_tsp, tspInit, npMax, dmElems, initialBest, recordResult, tourLength,
    dmGet, h1, h2, bind, Except.bind, pure, Except.pure, List.range_succ,
    List.foldl_append, List.foldl_cons, List.foldl_nil, List.range_zero]

/-- **C4** (counterexample): with every configured backend failing to produce a
candidate (both unavailable), the orchestration returns the initial sentinel
dictionary normally — it raises nothing (no `NoSolverAvailableError` exists in
the code). -/
theorem c4_all_backends_fail_returns_sentinel :
    solve_tsp [[0, 1], [1, 0]] Mode.hybrid none none none = .ok initialBest ∧
    initialBest.solver = "None" ∧ initialBest.feasible = false ∧
    initialBest.tour = [] := by
  refine ⟨?_, rfl, rfl, rfl⟩
  norm_num [solve_tsp, tspInit, npMax, dmElems, initialBest]

/-- **C4** (amended): for every distance matrix with at least one entry, every
mode and every penalty argument, a run in which all backends fail to produce a
candidate returns the sentinel result `{tour: [], length: inf, feasible: false,
energy: inf, solver: "None"}` instead of raising. -/
theorem c4_amended_sentinel_returned (dm : List (List ℚ)) (mode : Mode)
    (penalty : Option ℚ) (h : dmElems dm ≠ []) :
    solve_tsp dm mode penalty none none = .ok initialBest := by
  obtain ⟨e, rest, hE⟩ : ∃ e r, dmElems dm = e :: r := by
    cases hE : dmElems dm with
    | nil => exact absurd hE h
    | cons a l => exact ⟨a, l, rfl⟩
  rcases mode <;>
    simp [solve_tsp, tspInit, npMax, hE, bind, Except.bind, pure, Except.pure]

theorem c4_amended_sentinel_returned_witness :
    dmElems [[(0 : ℚ), 1], [1, 0]] ≠ [] ∧
      solve_tsp [[(0 : ℚ), 1], [1, 0]] Mode.classical none none none = .ok initialBest :=
  ⟨by decide, c4_amended_sentinel_returned [[(0 : ℚ), 1], [1, 0]] Mode.classical none (by decide)⟩

/-- **C5** (counterexample): the constructor performs no validation.  A 1×1
matrix (fewer than 2 rows) and a matrix with negative entries are both accepted
— construction succeeds instead of failing with `InvalidInputError`. -/
theorem c5_no_validation_counterexample :
    tspInit [[5]] none = .ok ⟨[[5]], 1, 10⟩ ∧
    tspInit [[0, -1], [-1, 0]] none = .ok ⟨[[0, -1], [-1, 0]], 2, 1000⟩ := by
  constructor <;> norm_num [tspInit, npMax, dmElems]

/-- **C5** (amended): building the formulation validates nothing: it succeeds
for every matrix with at least one entry — square or not, fewer than 2 rows or
not, negative entries or not — storing the matrix and `n = len(distance_matrix)`.
No `InvalidInputError` exists. -/
theorem c5_amended_init_always_succeeds (dm : List (List ℚ)) (penalty : Option ℚ)
    (h : dmElems dm ≠ []) :
    ∃ P : ℚ, tspInit dm penalty = .ok ⟨dm, dm.length, P⟩ := by
  obtain ⟨e, rest, hE⟩ : ∃ e r, dmElems dm = e :: r := by
    cases hE : dmElems dm with
    | nil => exact absurd hE h
    | cons a l => exact ⟨a, l, rfl⟩
  rcases penalty with _ | q
  · exact ⟨if 2 * (dm.length : ℚ) * (rest.foldl max e) = 0 then 1000
      else 2 * (dm.length : ℚ) * (rest.foldl max e),
      by simp [tspInit, npMax, hE, bind, Except.bind, pure, Except.pure]⟩
  · exact ⟨if q = 0 then 1000 else q,
      by simp [tspInit, npMax, hE, bind, Except.bind, pure, Except.pure]⟩

theorem c5_amended_init_always_succeeds_witness :
    dmElems [[(3 : ℚ), 2]] ≠ [] ∧
      ∃ P : ℚ, tspInit [[(3 : ℚ), 2]] none = .ok ⟨[[(3 : ℚ), 2]], 1, P⟩ :=
  ⟨by decide, c5_amended_init_always_succeeds [[(3 : ℚ), 2]] none (by decide)⟩

/-- **C9**: for a square matrix with `n ≥ 2` and no explicit penalty, the
auto-computed penalty is `2 * n * max(distance_matrix)` whenever that value is
nonzero, is the fallback `1000` when the matrix is all-zero, and is never
zero. -/
theorem c9_auto_penalty (dm : List (List ℚ)) (hn : 2 ≤ dm.length)
    (hsq : ∀ row ∈ dm, row.length = dm.length) :
    ∃ m f, npMax dm = .ok m ∧ tspInit dm none = .ok f ∧
      (2 * (dm.length : ℚ) * m ≠ 0 → f.penalty = 2 * (dm.length : ℚ) * m) ∧
      ((∀ q ∈ dmElems dm, q = 0) → f.penalty = 1000) ∧
      f.penalty ≠ 0 := by
  obtain ⟨e, rest, hE⟩ := dmElems_cons_of_two_le dm hn hsq
  have hmax : npMax dm = .ok (rest.foldl max e) := by simp [npMax, hE]
  set m := rest.foldl max e with hm
  have hinit : tspInit dm none =
      .ok ⟨dm, dm.length, if 2 * (dm.length : ℚ) * m = 0 then 1000
        else 2 * (dm.length : ℚ) * m⟩ := by
    simp [tspInit, npMax, hE, bind, Except.bind, pure, Except.pure, hm]
  refine ⟨m, _, hmax, hinit, ?_, ?_, ?_⟩
  · intro hne
    show (if 2 * (dm.length : ℚ) * m = 0 then (1000 : ℚ)
      else 2 * (dm.length : ℚ) * m) = 2 * (dm.length : ℚ) * m
    rw [if_neg hne]
  · intro hzero
    have hmem : m ∈ e :: rest := foldl_max_mem rest e
    have hm0 : m = 0 := hzero m (hE ▸ hmem)
    show (if 2 * (dm.length : ℚ) * m = 0 then (1000 : ℚ)
      else 2 * (dm.length : ℚ) * m) = 1000
    rw [if_pos (by rw [hm0]; ring)]
  · show (if 2 * (dm.length : ℚ) * m = 0 then (1000 : ℚ)
      else 2 * (dm.length : ℚ) * m) ≠ 0
    split_ifs with h0
    · norm_num
    · exact h0

theorem c9_auto_penalty_witness :
    (2 ≤ ([[(0 : ℚ), 1], [1, 0]] : List (List ℚ)).length ∧
      ∀ row ∈ ([[(0 : ℚ), 1], [1, 0]] : List (List ℚ)),
        row.length = ([[(0 : ℚ), 1], [1, 0]] : List (List ℚ)).length) ∧
    ∃ m f, npMax [[(0 : ℚ), 1], [1, 0]] = .ok m ∧
      tspInit [[(0 : ℚ), 1], [1, 0]] none = .ok f ∧
      (2 * (([[(0 : ℚ), 1], [1, 0]] : List (List ℚ)).length : ℚ) * m ≠ 0 →
        f.penalty = 2 * (([[(0 : ℚ), 1], [1, 0]] : List (List ℚ)).length : ℚ) * m) ∧
      ((∀ q ∈ dmElems [[(0 : ℚ), 1], [1, 0]], q = 0) → f.penalty = 1000) ∧
      f.penalty ≠ 0 :=
  ⟨⟨by norm_num, by decide⟩,
    c9_auto_penalty [[(0 : ℚ), 1], [1, 0]] (by norm_num) (by decide)⟩

/-- **C10**: an explicitly supplied penalty of `0` is silently replaced by
`1000`, while any explicit nonzero penalty is stored unchanged. -/
theorem c10_explicit_penalty (dm : List (List ℚ)) (q : ℚ) (h : dmElems dm ≠ []) :
    (∃ f, tspInit dm (some 0) = .ok f ∧ f.penalty = 1000) ∧
    (q ≠ 0 → ∃ f, tspInit dm (some q) = .ok f ∧ f.penalty = q) := by
  obtain ⟨e, rest, hE⟩ : ∃ e r, dmElems dm = e :: r := by
    cases hE : dmElems dm with
    | nil => exact absurd hE h
    | cons a l => exact ⟨a, l, rfl⟩
  constructor
  · refine ⟨⟨dm, dm.length, 1000⟩, ?_, rfl⟩
    simp [tspInit, npMax, hE, bind, Except.bind, pure, Except.pure]
  · intro hq
    refine ⟨⟨dm, dm.length, q⟩, ?_, rfl⟩
    simp [tspInit, npMax, hE, bind, Except.bind, pure, Except.pure, if_neg hq]

theorem c10_explicit_penalty_witness :
    dmElems [[(0 : ℚ), 7], [7, 0]] ≠ [] ∧
      ((∃ f, tspInit [[(0 : ℚ), 7], [7, 0]] (some 0) = .ok f ∧ f.penalty = 1000) ∧
        ((5 : ℚ) ≠ 0 → ∃ f, tspInit [[(0 : ℚ), 7], [7, 0]] (some 5) = .ok f ∧ f.penalty = 5)) :=
  ⟨by decide, c10_explicit_penalty [[(0 : ℚ), 7], [7, 0]] 5 (by decide)⟩

/-- **C8** (counterexample): a correct-length input containing the character
`'2'` — not `'0'` or `'1'` — does **not** raise: `int('2')` succeeds, the value
2 flows into the matrix, and decoding returns an infeasible result normally. -/
theorem c8_nonbinary_digit_does_not_raise :
    decode_solution 2 ['2', '0', '0', '0'] = .ok ⟨[], false, 2, 2⟩ ∧
    ¬ ('2' = '0' ∨ '2' = '1') := by decide

/-- **C8** (amended): for ASCII input, `decode_solution` raises exactly when the
length differs from `n * n` or some character is not a decimal digit; digit
characters other than `'0'`/`'1'` are accepted and treated as their numeric
value. -/
theorem c8_amended_decode_error_iff (n : Nat) (bs : List Char)
    (hascii : ∀ c ∈ bs, c.toNat < 128) :
    (∃ e, decode_solution n bs = .error e) ↔
      bs.length ≠ n * n ∨ ∃ c ∈ bs, ¬ c.isDigit := by
  by_cases hlen : bs.length = n * n
  · simp only [decode_solution, hlen, if_neg (by omega : ¬ n * n ≠ n * n)]
    by_cases hdig : ∀ c ∈ bs, c.isDigit
    · rw [mapPyInt_ok_of_digits bs hdig]
      simp only [ne_eq, hlen, not_true_eq_false, false_or]
      constructor
      · rintro ⟨e, he⟩; cases he
      · rintro ⟨c, hc, hcd⟩; exact absurd (hdig c hc) hcd
    · obtain ⟨e, he⟩ := (mapPyInt_error_iff bs).mpr (by push_neg at hdig; exact hdig)
      rw [he]
      simp only [ne_eq, hlen, not_true_eq_false, false_or]
      constructor
      · intro _; push_neg at hdig; exact hdig
      · intro _; exact ⟨e, rfl⟩
  · simp only [decode_solution, if_pos (by omega : bs.length ≠ n * n)]
    constructor
    · intro _; exact Or.inl hlen
    · intro _; exact ⟨_, rfl⟩

theorem c8_amended_decode_error_iff_witness :
    (∀ c ∈ ['1', '0', '0', '1'], c.toNat < 128) ∧
      ((∃ e, decode_solution 2 ['1', '0', '0', '1'] = .error e) ↔
        (['1', '0', '0', '1'] : List Char).length ≠ 2 * 2 ∨
          ∃ c ∈ ['1', '0', '0', '1'], ¬ c.isDigit) :=
  ⟨by decide, c8_amended_decode_error_iff 2 ['1', '0', '0', '1'] (by decide)⟩

/-- Entries of the converted bit list are binary when the characters are. -/
theorem bits_binary (bs : List Char) (hbin : ∀ c ∈ bs, c = '0' ∨ c = '1') :
    ∀ a, (bs.map digitVal).getD a 0 = 0 ∨ (bs.map digitVal).getD a 0 = 1 := by
  intro a
  rcases h : (bs.map digitVal)[a]? with _ | v
  · left
    simp [List.getD, h]
  · have hv : v ∈ bs.map digitVal := List.getElem?_mem h
    obtain ⟨c, hc, hcv⟩ := List.mem_map.mp hv
    have := hbin c hc
    have hgd : (bs.map digitVal).getD a 0 = v := by simp [List.getD, h]
    rw [hgd, ← hcv]
    rcases this with h0 | h0 <;> rw [h0] <;> simp [digitVal]

/-- A sum of naturals over `range n` equal to 1 has a unique index contributing
1, all others contributing 0. -/
theorem sum_range_eq_one_unique (n : Nat) (g : Nat → Nat)
    (h : ∑ i ∈ Finset.range n, g i = 1) :
    ∃ i0, i0 < n ∧ g i0 = 1 ∧ ∀ j < n, j ≠ i0 → g j = 0 := by
  have h1 : ∃ i ∈ Finset.range n, g i ≠ 0 := by
    by_contra hno
    push_neg at hno
    rw [Finset.sum_eq_zero hno] at h
    omega
  obtain ⟨i0, hi0mem, hgi⟩ := h1
  have hsplit := Finset.add_sum_erase (Finset.range n) g hi0mem
  rw [← hsplit] at h
  have hone : g i0 = 1 ∧ (∑ x ∈ (Finset.range n).erase i0, g x) = 0 := by omega
  refine ⟨i0, Finset.mem_range.mp hi0mem, hone.1, ?_⟩
  intro j hj hne
  have hjmem : j ∈ (Finset.range n).erase i0 :=
    Finset.mem_erase.mpr ⟨hne, Finset.mem_range.mpr hj⟩
  exact (Finset.sum_eq_zero_iff.mp hone.2) j hjmem

/-- When column `p` sums to 1 over binary entries, `findCity` returns exactly
the city whose bit is set. -/
theorem findCity_eq_iff (bits : List Nat) (n p c : Nat) (hp : p < n) (hc : c < n)
    (hcol1 : colSum bits n p = 1) :
    findCity bits n p = c ↔ bitAt bits n c p = 1 := by
  obtain ⟨i0, hi0, hbit, huniq⟩ := sum_range_eq_one_unique n (fun i => bitAt bits n i p) hcol1
  have hex : ∃ x ∈ List.range n, (bitAt bits n x p == 1) = true :=
    ⟨i0, List.mem_range.mpr hi0, by simp [hbit]⟩
  have hsome : (((List.range n).find? fun i => bitAt bits n i p == 1)).isSome := by
    rw [List.find?_isSome]
    exact hex
  obtain ⟨j, hj⟩ := Option.isSome_iff_exists.mp hsome
  have hjp : bitAt bits n j p = 1 := by
    have := List.find?_some hj
    simpa using this
  have hjn : j < n := List.mem_range.mp (List.mem_of_find?_eq_some hj)
  have hji0 : j = i0 := by
    by_contra hne
    exact absurd hjp (by simp [huniq j hjn hne])
  have hfind : findCity bits n p = i0 := by
    simp [findCity, hj, hji0]
  rw [hfind]
  constructor
  · intro hci0
    rw [hci0] at hbit
    exact hbit
  · intro hcbit
    by_contra hne
    exact absurd hcbit (by simp [huniq c hc (by omega)])

/-- A binary-valued sum over `range n` counts the indices whose value is 1. -/
theorem sum_range_binary_eq_countP (n : Nat) (g : Nat → Nat)
    (hg : ∀ a, g a = 0 ∨ g a = 1) :
    ∑ i ∈ Finset.range n, g i = (List.range n).countP (fun i => g i == 1) := by
  induction n with
  | zero => simp
  | succ n ih =>
    rw [Finset.sum_range_succ, List.range_succ, List.countP_append, ih]
    rcases hg n with h0 | h0 <;> simp [List.countP_cons, h0]

/-- Counting over `List.range` agrees with the `Finset.range` filter cardinality. -/
theorem card_filter_range_eq_countP (n : Nat) (q : Nat → Prop) [DecidablePred q] :
    ((Finset.range n).filter q).card = (List.range n).countP (fun x => decide (q x)) := by
  induction n with
  | zero => simp
  | succ n ih =>
    rw [Finset.range_succ, Finset.filter_insert, List.range_succ, List.countP_append]
    by_cases hq : q n
    · rw [if_pos hq, Finset.card_insert_of_not_mem (by simp)]
      simp [ih, hq, List.countP_cons]
    · rw [if_neg hq]
      simp [ih, hq, List.countP_cons]

/-- **C6**: decoding a permutation bitstring (one 1 per row and per column)
yields a feasible result with zero violation counts and a closed tour of
`n + 1` cities visiting each city in `[0, n)` exactly once among the first
`n` entries. -/
theorem c6_decode_permutation (n : Nat) (hn : 2 ≤ n) (bs : List Char)
    (hlen : bs.length = n * n)
    (hbin : ∀ c ∈ bs, c = '0' ∨ c = '1')
    (hrow : ∀ i < n, rowSum (bs.map digitVal) n i = 1)
    (hcol : ∀ p < n, colSum (bs.map digitVal) n p = 1) :
    ∃ r, decode_solution n bs = .ok r ∧
      r.feasible = true ∧ r.posViolations = 0 ∧ r.cityViolations = 0 ∧
      r.tour.length = n + 1 ∧ r.tour.head? = r.tour.getLast? ∧
      ∀ c < n, (r.tour.take n).count c = 1 := by
  set bits := bs.map digitVal with hbits
  have hdig : ∀ c ∈ bs, c.isDigit := by
    intro c hc
    rcases hbin c hc with h | h <;> rw [h] <;> decide
  have hmap : mapPyInt bs = .ok bits := mapPyInt_ok_of_digits bs hdig
  have hdecode : decode_solution n bs = .ok (decodeBits n bits) := by
    simp only [decode_solution, hlen, if_neg (by omega : ¬ n * n ≠ n * n), hmap]
  have hpv : posViolCount bits n = 0 := by
    rw [posViolCount, List.countP_eq_zero]
    intro p hp
    simp [hcol p (List.mem_range.mp hp)]
  have hcv : cityViolCount bits n = 0 := by
    rw [cityViolCount, List.countP_eq_zero]
    intro i hi
    simp [hrow i (List.mem_range.mp hi)]
  have hfeas : (posViolCount bits n == 0 && cityViolCount bits n == 0) = true := by
    simp [hpv, hcv]
  set ta := (List.range n).map (findCity bits n) with hta
  have htalen : ta.length = n := by simp [hta]
  obtain ⟨t, ta', hcons⟩ : ∃ t ta', ta = t :: ta' := by
    cases h : ta with
    | nil => rw [h] at htalen; simp at htalen; omega
    | cons t ta' => exact ⟨t, ta', rfl⟩
  have hr : decodeBits n bits = ⟨ta ++ [ta.headD 0], true, 0, 0⟩ := by
    rw [decodeBits, hpv, hcv]
    simp [hta]
  refine ⟨⟨ta ++ [ta.headD 0], true, 0, 0⟩, by rw [hdecode, hr], rfl, rfl, rfl, ?_, ?_, ?_⟩
  · simp [htalen]
  · rw [List.getLast?_concat, hcons]
    simp
  · intro c hc
    have htake : (ta ++ [ta.headD 0]).take n = ta := List.take_left' htalen
    rw [htake, List.count_eq_countP, hta, List.countP_map]
    have hcong : ∀ p ∈ List.range n,
        ((fun x => x == c) ∘ findCity bits n) p ↔ (bitAt bits n c p == 1) = true := by
      intro p hp
      have hpn := List.mem_range.mp hp
      simp only [Function.comp_apply, beq_iff_eq]
      rw [findCity_eq_iff bits n p c hpn hc (hcol p hpn)]
    rw [List.countP_congr hcong]
    have := sum_range_binary_eq_countP n (fun p => bitAt bits n c p)
      (fun a => bits_binary bs hbin (c * n + a))
    rw [← this]
    exact hrow c hc

theorem c6_decode_permutation_witness :
    (2 ≤ 2 ∧ (['1', '0', '0', '1'] : List Char).length = 2 * 2 ∧
      (∀ c ∈ (['1', '0', '0', '1'] : List Char), c = '0' ∨ c = '1') ∧
      (∀ i < 2, rowSum ((['1', '0', '0', '1'] : List Char).map digitVal) 2 i = 1) ∧
      (∀ p < 2, colSum ((['1', '0', '0', '1'] : List Char).map digitVal) 2 p = 1)) ∧
    ∃ r, decode_solution 2 ['1', '0', '0', '1'] = .ok r ∧
      r.feasible = true ∧ r.posViolations = 0 ∧ r.cityViolations = 0 ∧
      r.tour.length = 2 + 1 ∧ r.tour.head? = r.tour.getLast? ∧
      ∀ c < 2, (r.tour.take 2).count c = 1 :=
  ⟨⟨by norm_num, by decide, by decide, by decide, by decide⟩,
    c6_decode_permutation 2 (by norm_num) ['1', '0', '0', '1']
      (by decide) (by decide) (by decide) (by decide)⟩

/-- **C7**: decoding a correct-length bitstring with some row or column sum
different from 1 yields an infeasible result with an empty tour; the position
violation count equals the number of bad columns and the city violation count
the number of bad rows. -/
theorem c7_decode_infeasible (n : Nat) (hn : 2 ≤ n) (bs : List Char)
    (hlen : bs.length = n * n)
    (hbin : ∀ c ∈ bs, c = '0' ∨ c = '1')
    (hbad : (∃ p < n, colSum (bs.map digitVal) n p ≠ 1) ∨
      (∃ i < n, rowSum (bs.map digitVal) n i ≠ 1)) :
    ∃ r, decode_solution n bs = .ok r ∧
      r.feasible = false ∧ r.tour = [] ∧
      r.posViolations =
        ((Finset.range n).filter (fun p => colSum (bs.map digitVal) n p ≠ 1)).card ∧
      r.cityViolations =
        ((Finset.range n).filter (fun i => rowSum (bs.map digitVal) n i ≠ 1)).card := by
  set bits := bs.map digitVal with hbits
  have hdig : ∀ c ∈ bs, c.isDigit := by
    intro c hc
    rcases hbin c hc with h | h <;> rw [h] <;> decide
  have hmap : mapPyInt bs = .ok bits := mapPyInt_ok_of_digits bs hdig
  have hdecode : decode_solution n bs = .ok (decodeBits n bits) := by
    simp only [decode_solution, hlen, if_neg (by omega : ¬ n * n ≠ n * n), hmap]
  have hfeas : (posViolCount bits n == 0 && cityViolCount bits n == 0) = false := by
    rcases hbad with ⟨p, hp, hne⟩ | ⟨i, hi, hne⟩
    · have hpos : 0 < posViolCount bits n := by
        rw [posViolCount, List.countP_pos_iff]
        exact ⟨p, List.mem_range.mpr hp, by simp [hne]⟩
      have hne0 : posViolCount bits n ≠ 0 := by omega
      simp [hne0]
    · have hpos : 0 < cityViolCount bits n := by
        rw [cityViolCount, List.countP_pos_iff]
        exact ⟨i, List.mem_range.mpr hi, by simp [hne]⟩
      have hne0 : cityViolCount bits n ≠ 0 := by omega
      simp [hne0]
  have hr : decodeBits n bits =
      ⟨[], false, posViolCount bits n, cityViolCount bits n⟩ := by
    rw [decodeBits]
    simp only [hfeas, if_neg (by simp : ¬ (false : Bool) = true)]
  refine ⟨_, by rw [hdecode, hr], rfl, rfl, ?_, ?_⟩
  · show posViolCount bits n = _
    rw [posViolCount, card_filter_range_eq_countP]
    refine List.countP_congr ?_
    intro p _
    simp [bne_iff_ne]
  · show cityViolCount bits n = _
    rw [cityViolCount, card_filter_range_eq_countP]
    refine List.countP_congr ?_
    intro i _
    simp [bne_iff_ne]

theorem c7_decode_infeasible_witness :
    (2 ≤ 2 ∧ (['1', '1', '0', '0'] : List Char).length = 2 * 2 ∧
      (∀ c ∈ (['1', '1', '0', '0'] : List Char), c = '0' ∨ c = '1') ∧
      ((∃ p < 2, colSum ((['1', '1', '0', '0'] : List Char).map digitVal) 2 p ≠ 1) ∨
        (∃ i < 2, rowSum ((['1', '1', '0', '0'] : List Char).map digitVal) 2 i ≠ 1))) ∧
    ∃ r, decode_solution 2 ['1', '1', '0', '0'] = .ok r ∧
      r.feasible = false ∧ r.tour = [] ∧
      r.posViolations =
        ((Finset.range 2).filter
          (fun p => colSum ((['1', '1', '0', '0'] : List Char).map digitVal) 2 p ≠ 1)).card ∧
      r.cityViolations =
        ((Finset.range 2).filter
          (fun i => rowSum ((['1', '1', '0', '0'] : List Char).map digitVal) 2 i ≠ 1)).card :=
  ⟨⟨by norm_num, by decide, by decide, Or.inr ⟨0, by norm_num, by decide⟩⟩,
    c7_decode_infeasible 2 (by norm_num) ['1', '1', '0', '0'] (by decide) (by decide)
      (Or.inr ⟨0, by norm_num, by decide⟩)⟩

/-! ## Dict fold lemmas for the QUBO construction -/

theorem sumAt_nil {κ : Type} [DecidableEq κ] (k : κ) : sumAt ([] : List (κ × ℚ)) k = 0 := rfl

theorem sumAt_cons {κ : Type} [DecidableEq κ] (e : κ × ℚ) (l : List (κ × ℚ)) (k : κ) :
    sumAt (e :: l) k = (if e.1 = k then e.2 else 0) + sumAt l k := by
  simp [sumAt]

theorem sumAt_append {κ : Type} [DecidableEq κ] (l1 l2 : List (κ × ℚ)) (k : κ) :
    sumAt (l1 ++ l2) k = sumAt l1 k + sumAt l2 k := by
  simp [sumAt]

theorem sumAt_eq_zero_of_not_mem {κ : Type} [DecidableEq κ] (l : List (κ × ℚ)) (k : κ)
    (h : k ∉ keysOf l) : sumAt l k = 0 := by
  induction l with
  | nil => rfl
  | cons e l ih =>
    rw [sumAt_cons]
    have hk : e.1 ≠ k := fun hek => h (by simp [keysOf, hek])
    rw [if_neg hk, ih (fun hm => h (by simp [keysOf] at hm ⊢; exact Or.inr hm))]
    ring

theorem dget0_foldl_daccum {κ : Type} [DecidableEq κ] (l : List (κ × ℚ)) (dct : Dict κ ℚ)
    (k : κ) :
    dget0 (l.foldl (fun d e => daccum d e.1 e.2) dct) k = dget0 dct k + sumAt l k := by
  induction l generalizing dct with
  | nil => rw [List.foldl_nil, sumAt_nil]; ring
  | cons e l ih =>
    rw [List.foldl_cons, ih, sumAt_cons]
    by_cases hk : e.1 = k
    · subst hk
      have hstep : dget0 (daccum dct e.1 e.2) e.1 = dget0 dct e.1 + e.2 := by
        simp [daccum, dinsert, dget0]
      rw [hstep, if_pos rfl]
      ring
    · have hstep : dget0 (daccum dct e.1 e.2) k = dget0 dct k := by
        simp [daccum, dinsert, dget0, if_neg (fun h : k = e.1 => hk h.symm)]
      rw [hstep, if_neg hk]
      ring

theorem foldl_daccum_eq_none_iff {κ : Type} [DecidableEq κ] (l : List (κ × ℚ))
    (dct : Dict κ ℚ) (k : κ) :
    (l.foldl (fun d e => daccum d e.1 e.2) dct) k = none ↔
      dct k = none ∧ k ∉ keysOf l := by
  induction l generalizing dct with
  | nil => simp [keysOf]
  | cons e l ih =>
    rw [List.foldl_cons, ih]
    have hmem : k ∈ keysOf (e :: l) ↔ (k = e.1 ∨ k ∈ keysOf l) := by
      simp [keysOf]
    by_cases hk : k = e.1
    · constructor
      · rintro ⟨hd, -⟩
        exfalso
        simp [daccum, dinsert, if_pos hk] at hd
      · rintro ⟨-, hm⟩
        exact absurd (hmem.mpr (Or.inl hk)) hm
    · constructor
      · rintro ⟨hd, hm⟩
        simp only [daccum, dinsert, if_neg hk] at hd
        refine ⟨hd, fun h => ?_⟩
        rcases hmem.mp h with h1 | h1
        · exact hk h1
        · exact hm h1
      · rintro ⟨hd, hm⟩
        refine ⟨?_, fun h => hm (hmem.mpr (Or.inr h))⟩
        simp [daccum, dinsert, if_neg hk, hd]

theorem foldl_dinsert_eq_none_iff {κ : Type} [DecidableEq κ] (l : List (κ × ℚ))
    (dct : Dict κ ℚ) (k : κ) :
    (l.foldl (fun d e => dinsert d e.1 e.2) dct) k = none ↔
      dct k = none ∧ k ∉ keysOf l := by
  induction l generalizing dct with
  | nil => simp [keysOf]
  | cons e l ih =>
    rw [List.foldl_cons, ih]
    have hmem : k ∈ keysOf (e :: l) ↔ (k = e.1 ∨ k ∈ keysOf l) := by
      simp [keysOf]
    by_cases hk : k = e.1
    · constructor
      · rintro ⟨hd, -⟩
        exfalso
        simp [dinsert, if_pos hk] at hd
      · rintro ⟨-, hm⟩
        exact absurd (hmem.mpr (Or.inl hk)) hm
    · constructor
      · rintro ⟨hd, hm⟩
        simp only [dinsert, if_neg hk] at hd
        refine ⟨hd, fun h => ?_⟩
        rcases hmem.mp h with h1 | h1
        · exact hk h1
        · exact hm h1
      · rintro ⟨hd, hm⟩
        refine ⟨?_, fun h => hm (hmem.mpr (Or.inr h))⟩
        simp [dinsert, if_neg hk, hd]

theorem foldl_dinsert_eq_daccum_of_pairwise {κ : Type} [DecidableEq κ]
    (l : List (κ × ℚ)) (dct : Dict κ ℚ)
    (hl : l.Pairwise fun a b => a.1 ≠ b.1) (hfresh : ∀ e ∈ l, dct e.1 = none) (k : κ) :
    (l.foldl (fun d e => dinsert d e.1 e.2) dct) k =
      (l.foldl (fun d e => daccum d e.1 e.2) dct) k := by
  induction l generalizing dct with
  | nil => rfl
  | cons e l ih =>
    rw [List.foldl_cons, List.foldl_cons]
    have he : dct e.1 = none := hfresh e (by simp)
    have hstep : dinsert dct e.1 e.2 = daccum dct e.1 e.2 := by
      funext k'
      simp [daccum, dinsert, dget0, he]
    rw [hstep]
    refine ih (daccum dct e.1 e.2) (List.Pairwise.sublist (List.sublist_cons_self e l) hl) ?_ 
    intro e' he'
    have hne : e.1 ≠ e'.1 := (List.pairwise_cons.mp hl).1 e' he'
    simp [daccum, dinsert, if_neg (fun h : e'.1 = e.1 => hne h.symm)]
    exact hfresh e' (by simp [he'])

theorem dget0_foldl_dinsert_of_pairwise {κ : Type} [DecidableEq κ]
    (l : List (κ × ℚ)) (hl : l.Pairwise fun a b => a.1 ≠ b.1) (k : κ) :
    dget0 (l.foldl (fun d e => dinsert d e.1 e.2) dempty) k = sumAt l k := by
  rw [dget0, foldl_dinsert_eq_daccum_of_pairwise l dempty hl (fun _ _ => rfl) k]
  have := dget0_foldl_daccum l dempty k
  rw [dget0] at this
  rw [this]
  simp [dget0, dempty]

theorem dget0_dupdate_dempty (d : Dict Nat ℚ) (k : Nat) :
    dget0 (dupdate dempty d) k = dget0 d k := by
  simp only [dget0, dupdate]
  cases d k <;> simp [dempty]

theorem dget0_dupdate_of_disjoint (d1 d2 : Dict (Nat × Nat) ℚ)
    (hdisj : ∀ k, d2 k ≠ none → d1 k = none) (k : Nat × Nat) :
    dget0 (dupdate d1 d2) k = dget0 d1 k + dget0 d2 k := by
  simp only [dget0, dupdate]
  cases h2 : d2 k with
  | none => simp
  | some v =>
    rw [hdisj k (by simp [h2])]
    simp

/-! ## Index arithmetic -/

theorem idx_components (n i p : Nat) (hn : 0 < n) (hp : p < n) :
    (i * n + p) / n = i ∧ (i * n + p) % n = p := by
  constructor
  · rw [Nat.add_comm, Nat.add_mul_div_right p i hn, Nat.div_eq_of_lt hp]
    omega
  · rw [Nat.add_comm, Nat.add_mul_mod_self_right, Nat.mod_eq_of_lt hp]

theorem idx_inj (n i p i' p' : Nat) (hn : 0 < n) (hp : p < n) (hp' : p' < n)
    (h : i * n + p = i' * n + p') : i = i' ∧ p = p' := by
  obtain ⟨hd, hm⟩ := idx_components n i p hn hp
  obtain ⟨hd', hm'⟩ := idx_components n i' p' hn hp'
  rw [h] at hd hm
  exact ⟨hd ▸ hd'.symm ▸ rfl, hm ▸ hm'.symm ▸ rfl⟩

theorem idx_lt (n i p : Nat) (hi : i < n) (hp : p < n) : i * n + p < n * n := by
  have h1 : i * n + p < (i + 1) * n := by
    rw [Nat.succ_mul]
    omega
  have h2 : (i + 1) * n ≤ n * n := Nat.mul_le_mul_right n hi
  omega

/-! ## Key shapes and distinctness of the QUBO contribution lists -/

theorem pairwise_keys_flatMap (l : List Nat) (hl : l.Nodup)
    (g : Nat → List ((Nat × Nat) × ℚ))
    (hin : ∀ i ∈ l, (g i).Pairwise fun a b => a.1 ≠ b.1)
    (hcross : ∀ i ∈ l, ∀ j ∈ l, i ≠ j → ∀ a ∈ g i, ∀ b ∈ g j, a.1 ≠ b.1) :
    (l.flatMap g).Pairwise fun a b => a.1 ≠ b.1 := by
  induction l with
  | nil => simp
  | cons i l ih =>
    rw [List.flatMap_cons, List.pairwise_append]
    obtain ⟨hni, hnl⟩ := List.nodup_cons.mp hl
    refine ⟨hin i (by simp), ih hnl (fun j hj => hin j (by simp [hj]))
      (fun j hj j' hj' hne a ha b hb =>
        hcross j (by simp [hj]) j' (by simp [hj']) hne a ha b hb), ?_⟩
    intro a ha b hb
    obtain ⟨j, hj, hbj⟩ := List.mem_flatMap.mp hb
    exact hcross i (by simp) j (by simp [hj]) (fun h => hni (h ▸ hj)) a ha b hbj

theorem mem_keysOf_append {κ : Type} (l1 l2 : List (κ × ℚ)) (k : κ) :
    k ∈ keysOf (l1 ++ l2) ↔ k ∈ keysOf l1 ∨ k ∈ keysOf l2 := by
  simp [keysOf]

theorem mem_keysOf_costContribs {n : Nat} {d : Nat → Nat → ℚ} {k : Nat × Nat}
    (h : k ∈ keysOf (costContribs n d)) :
    ∃ i j p, i < n ∧ j < n ∧ p < n ∧ i ≠ j ∧
      k = (i * n + p, j * n + ((p + 1) % n)) := by
  obtain ⟨e, he, hek⟩ := List.mem_map.mp h
  rw [costContribs] at he
  obtain ⟨i, hi, he⟩ := List.mem_flatMap.mp he
  obtain ⟨j, hj, he⟩ := List.mem_flatMap.mp he
  by_cases hij : i = j
  · rw [if_pos hij] at he
    simp at he
  · rw [if_neg hij] at he
    obtain ⟨p, hp, hpe⟩ := List.mem_map.mp he
    refine ⟨i, j, p, List.mem_range.mp hi, List.mem_range.mp hj, List.mem_range.mp hp, hij, ?_⟩
    rw [← hek, ← hpe]
    rfl

theorem mem_keysOf_quadContribs1 {n : Nat} {P : ℚ} {k : Nat × Nat}
    (h : k ∈ keysOf (quadContribs1 n P)) :
    ∃ i p q, i < n ∧ p < n ∧ q < n ∧ k = (i * n + p, i * n + q) := by
  obtain ⟨e, he, hek⟩ := List.mem_map.mp h
  rw [quadContribs1] at he
  obtain ⟨i, hi, he⟩ := List.mem_flatMap.mp he
  obtain ⟨p, hp, he⟩ := List.mem_flatMap.mp he
  obtain ⟨q, hq, hqe⟩ := List.mem_map.mp he
  refine ⟨i, p, q, List.mem_range.mp hi, List.mem_range.mp hp, List.mem_range.mp hq, ?_⟩
  rw [← hek, ← hqe]
  rfl

theorem mem_keysOf_quadContribs2 {n : Nat} {P : ℚ} {k : Nat × Nat}
    (h : k ∈ keysOf (quadContribs2 n P)) :
    ∃ p i j, p < n ∧ i < n ∧ j < n ∧ k = (i * n + p, j * n + p) := by
  obtain ⟨e, he, hek⟩ := List.mem_map.mp h
  rw [quadContribs2] at he
  obtain ⟨p, hp, he⟩ := List.mem_flatMap.mp he
  obtain ⟨i, hi, he⟩ := List.mem_flatMap.mp he
  obtain ⟨j, hj, hje⟩ := List.mem_map.mp he
  refine ⟨p, i, j, List.mem_range.mp hp, List.mem_range.mp hi, List.mem_range.mp hj, ?_⟩
  rw [← hek, ← hje]
  rfl

theorem succ_mod_ne_self {n p : Nat} (hn : 2 ≤ n) (hp : p < n) : (p + 1) % n ≠ p := by
  rcases Nat.lt_or_ge (p + 1) n with h | h
  · rw [Nat.mod_eq_of_lt h]
    omega
  · have hpn : p + 1 = n := by omega
    rw [hpn, Nat.mod_self]
    omega

theorem pairwise_keys_costContribs (n : Nat) (d : Nat → Nat → ℚ) :
    (costContribs n d).Pairwise fun a b => a.1 ≠ b.1 := by
  rcases Nat.eq_zero_or_pos n with hn0 | hn
  · subst hn0
    simp [costContribs]
  rw [costContribs]
  refine pairwise_keys_flatMap _ (List.nodup_range n) _ ?_ ?_
  · intro i hi
    refine pairwise_keys_flatMap _ (List.nodup_range n) _ ?_ ?_
    · intro j hj
      by_cases hij : i = j
      · simp [hij]
      · rw [if_neg hij, List.pairwise_map]
        refine List.Pairwise.imp_of_mem ?_ (List.pairwise_lt_range n)
        intro p q hp hq hlt heq
        have h1 := congrArg Prod.fst heq
        simp only [get_variable_index] at h1
        omega
    · intro j hj j' hj' hne a ha b hb
      by_cases hij : i = j
      · rw [hij] at ha; simp at ha
      · by_cases hij' : i = j'
        · rw [hij'] at hb; simp at hb
        · rw [if_neg hij] at ha
          rw [if_neg hij'] at hb
          obtain ⟨p, hp, hap⟩ := List.mem_map.mp ha
          obtain ⟨q, hq, hbq⟩ := List.mem_map.mp hb
          rw [← hap, ← hbq]
          intro heq
          have h2 := congrArg Prod.snd heq
          simp only [get_variable_index] at h2
          have := idx_inj n j ((p + 1) % n) j' ((q + 1) % n) hn
            (Nat.mod_lt _ hn) (Nat.mod_lt _ hn) h2
          exact hne this.1
  · intro i hi i' hi' hne a ha b hb
    obtain ⟨j, hj, haj⟩ := List.mem_flatMap.mp ha
    obtain ⟨j', hj', hbj⟩ := List.mem_flatMap.mp hb
    by_cases hij : i = j
    · rw [hij] at haj; simp at haj
    · by_cases hij' : i' = j'
      · rw [hij'] at hbj; simp at hbj
      · rw [if_neg hij] at haj
        rw [if_neg hij'] at hbj
        obtain ⟨p, hp, hap⟩ := List.mem_map.mp haj
        obtain ⟨q, hq, hbq⟩ := List.mem_map.mp hbj
        rw [← hap, ← hbq]
        intro heq
        have h1 := congrArg Prod.fst heq
        simp only [get_variable_index] at h1
        have := idx_inj n i p i' q hn (List.mem_range.mp hp) (List.mem_range.mp hq) h1
        exact hne this.1

theorem cost_pen_keys_disjoint (n : Nat) (d : Nat → Nat → ℚ) (P : ℚ) (hn : 2 ≤ n)
    (k : Nat × Nat) (hpen : k ∈ keysOf (quadContribs1 n P ++ quadContribs2 n P)) :
    k ∉ keysOf (costContribs n d) := by
  intro hcost
  obtain ⟨i, j, p, hi, hj, hp, hij, hk⟩ := mem_keysOf_costContribs hcost
  have hn0 : 0 < n := by omega
  rcases (mem_keysOf_append _ _ k).mp hpen with h1 | h2
  · obtain ⟨i', p', q', hi', hp', hq', hk'⟩ := mem_keysOf_quadContribs1 h1
    rw [hk] at hk'
    have hfst := congrArg Prod.fst hk'
    have hsnd := congrArg Prod.snd hk'
    simp only at hfst hsnd
    obtain ⟨hii, hpp⟩ := idx_inj n i p i' p' hn0 hp hp' hfst
    obtain ⟨hji, -⟩ := idx_inj n j ((p + 1) % n) i' q' hn0 (Nat.mod_lt _ hn0) hq' hsnd
    exact hij (hii.trans hji.symm)
  · obtain ⟨p', i', j', hp', hi', hj', hk'⟩ := mem_keysOf_quadContribs2 h2
    rw [hk] at hk'
    have hfst := congrArg Prod.fst hk'
    have hsnd := congrArg Prod.snd hk'
    simp only at hfst hsnd
    obtain ⟨-, hpp⟩ := idx_inj n i p i' p' hn0 hp hp' hfst
    obtain ⟨-, hmod⟩ := idx_inj n j ((p + 1) % n) j' p' hn0 (Nat.mod_lt _ hn0) hp' hsnd
    exact succ_mod_ne_self hn hp (hmod.trans hpp.symm)

/-- The final quadratic coefficient stored for any variable pair equals the sum
of every contribution made to that pair (shared helper). -/
theorem quadratic_final_eq_contrib_sum (f : TSPQUBOFormulation) (hn : 2 ≤ f.n)
    (k : Nat × Nat) :
    dget0 (create_qubo f).quadratic k =
      sumAt (costContribs f.n (dmGet f.distance_matrix) ++
        (quadContribs1 f.n f.penalty ++ quadContribs2 f.n f.penalty)) k := by
  have hquad : (create_qubo f).quadratic =
      dupdate
        ((costContribs f.n (dmGet f.distance_matrix)).foldl
          (fun d e => dinsert d e.1 e.2) dempty)
        ((quadContribs1 f.n f.penalty ++ quadContribs2 f.n f.penalty).foldl
          (fun d e => daccum d e.1 e.2) dempty) := rfl
  rw [hquad]
  rw [dget0_dupdate_of_disjoint]
  · rw [dget0_foldl_dinsert_of_pairwise _ (pairwise_keys_costContribs f.n
      (dmGet f.distance_matrix)) k]
    have hacc := dget0_foldl_daccum
      (quadContribs1 f.n f.penalty ++ quadContribs2 f.n f.penalty) dempty k
    rw [show dget0 (dempty : Dict (Nat × Nat) ℚ) k = 0 from rfl] at hacc
    rw [hacc]
    simp only [sumAt_append]
    ring
  · intro k' hk'
    have hmem : k' ∈ keysOf (quadContribs1 f.n f.penalty ++ quadContribs2 f.n f.penalty) := by
      by_contra hno
      exact hk' ((foldl_daccum_eq_none_iff _ _ _).mpr ⟨rfl, hno⟩)
    exact (foldl_dinsert_eq_none_iff _ _ _).mpr
      ⟨rfl, cost_pen_keys_disjoint f.n (dmGet f.distance_matrix) f.penalty hn k' hmem⟩

/-- **C3**: in the built QUBO, the final quadratic coefficient stored for any
variable pair equals the **sum** of every contribution made to that pair — the
cost-term writes (to pairwise-distinct keys) and the two one-hot penalty
families (accumulated with `dict.get(..., 0.0) + P`, the two families sharing
the diagonal keys), merged disjointly: no contribution ever overwrites
another. -/
theorem c3_quadratic_accumulates_additively (f : TSPQUBOFormulation) (hn : 2 ≤ f.n)
    (k : Nat × Nat) :
    dget0 (create_qubo f).quadratic k =
      sumAt (costContribs f.n (dmGet f.distance_matrix) ++
        (quadContribs1 f.n f.penalty ++ quadContribs2 f.n f.penalty)) k :=
  quadratic_final_eq_contrib_sum f hn k

theorem c3_quadratic_accumulates_additively_witness :
    2 ≤ (⟨[[0, 1], [1, 0]], 2, 4⟩ : TSPQUBOFormulation).n ∧
      dget0 (create_qubo ⟨[[0, 1], [1, 0]], 2, 4⟩).quadratic (0, 0) =
        sumAt (costContribs 2 (dmGet [[0, 1], [1, 0]]) ++
          (quadContribs1 2 4 ++ quadContribs2 2 4)) (0, 0) :=
  ⟨by norm_num, c3_quadratic_accumulates_additively ⟨[[0, 1], [1, 0]], 2, 4⟩ (by norm_num) (0, 0)⟩

/-! ## Summation lemmas for the QUBO energy -/

theorem list_range_map_sum (n : Nat) (f : Nat → ℚ) :
    ((List.range n).map f).sum = ∑ i ∈ Finset.range n, f i := by
  induction n with
  | zero => simp
  | succ n ih =>
    rw [List.range_succ, List.map_append, List.sum_append, Finset.sum_range_succ, ih]
    simp

theorem map_sum_flatMap {α β : Type} (l : List α) (g : α → List β) (f : β → ℚ) :
    ((l.flatMap g).map f).sum = (l.map fun a => ((g a).map f).sum).sum := by
  induction l with
  | nil => simp
  | cons a l ih => simp [ih]

theorem sum_range_sumAt_linear (m : Nat) (l : List (Nat × ℚ)) (x : Nat → ℚ)
    (hkeys : ∀ e ∈ l, e.1 < m) :
    ∑ a ∈ Finset.range m, sumAt l a * x a = (l.map fun e => e.2 * x e.1).sum := by
  induction l with
  | nil => simp [sumAt_nil]
  | cons e l ih =>
    have he : e.1 < m := hkeys e (by simp)
    have ihl := ih fun e' he' => hkeys e' (by simp [he'])
    simp only [sumAt_cons, add_mul, Finset.sum_add_distrib]
    rw [ihl, List.map_cons, List.sum_cons]
    congr 1
    rw [Finset.sum_congr rfl (fun a _ =>
      show (if e.1 = a then e.2 else 0) * x a = if e.1 = a then e.2 * x a else 0 by
        split_ifs <;> simp)]
    rw [Finset.sum_ite_eq, if_pos (Finset.mem_range.mpr he)]

theorem sum_range_sumAt_quadratic (m : Nat) (l : List ((Nat × Nat) × ℚ)) (x : Nat → ℚ)
    (hkeys : ∀ e ∈ l, e.1.1 < m ∧ e.1.2 < m) :
    ∑ a ∈ Finset.range m, ∑ b ∈ Finset.range m, sumAt l (a, b) * x a * x b =
      (l.map fun e => e.2 * x e.1.1 * x e.1.2).sum := by
  induction l with
  | nil => simp [sumAt_nil]
  | cons e l ih =>
    obtain ⟨h1, h2⟩ := hkeys e (by simp)
    have ihl := ih fun e' he' => hkeys e' (by simp [he'])
    simp only [sumAt_cons, add_mul, Finset.sum_add_distrib]
    rw [ihl, List.map_cons, List.sum_cons]
    congr 1
    have hinner : ∀ a ∈ Finset.range m,
        ∑ b ∈ Finset.range m, (if e.1 = (a, b) then e.2 else 0) * x a * x b =
          if e.1.1 = a then e.2 * x a * x e.1.2 else 0 := by
      intro a _
      by_cases ha : e.1.1 = a
      · rw [if_pos ha]
        rw [Finset.sum_congr rfl (fun b _ =>
          show (if e.1 = (a, b) then e.2 else 0) * x a * x b =
            if e.1.2 = b then e.2 * x a * x b else 0 by
          by_cases hb : e.1.2 = b
          · rw [if_pos hb, if_pos (by rw [Prod.ext_iff]; exact ⟨ha, hb⟩)]
          · rw [if_neg hb, if_neg (by rw [Prod.ext_iff]; rintro ⟨-, h2'⟩; exact hb h2'),
              zero_mul, zero_mul])]
        rw [Finset.sum_ite_eq, if_pos (Finset.mem_range.mpr h2)]
      · rw [if_neg ha]
        refine Finset.sum_eq_zero fun b _ => ?_
        rw [if_neg (by rw [Prod.ext_iff]; rintro ⟨h1', -⟩; exact ha h1'), zero_mul, zero_mul]
    rw [Finset.sum_congr rfl hinner, Finset.sum_ite_eq, if_pos (Finset.mem_range.mpr h1)]

theorem costContribs_keys_lt (n : Nat) (d : Nat → Nat → ℚ) :
    ∀ e ∈ costContribs n d, e.1.1 < n * n ∧ e.1.2 < n * n := by
  intro e he
  have hk := mem_keysOf_costContribs (List.mem_map_of_mem Prod.fst he)
  obtain ⟨i, j, p, hi, hj, hp, hij, hk'⟩ := hk
  have hn0 : 0 < n := by omega
  rw [hk']
  exact ⟨idx_lt n i p hi hp, idx_lt n j ((p + 1) % n) hj (Nat.mod_lt _ hn0)⟩

theorem quadContribs1_keys_lt (n : Nat) (P : ℚ) :
    ∀ e ∈ quadContribs1 n P, e.1.1 < n * n ∧ e.1.2 < n * n := by
  intro e he
  obtain ⟨i, p, q, hi, hp, hq, hk'⟩ := mem_keysOf_quadContribs1 (List.mem_map_of_mem Prod.fst he)
  rw [hk']
  exact ⟨idx_lt n i p hi hp, idx_lt n i q hi hq⟩

theorem quadContribs2_keys_lt (n : Nat) (P : ℚ) :
    ∀ e ∈ quadContribs2 n P, e.1.1 < n * n ∧ e.1.2 < n * n := by
  intro e he
  obtain ⟨p, i, j, hp, hi, hj, hk'⟩ := mem_keysOf_quadContribs2 (List.mem_map_of_mem Prod.fst he)
  rw [hk']
  exact ⟨idx_lt n i p hi hp, idx_lt n j p hj hp⟩

theorem linContribs1_keys_lt (n : Nat) (P : ℚ) : ∀ e ∈ linContribs1 n P, e.1 < n * n := by
  intro e he
  rw [linContribs1] at he
  obtain ⟨i, hi, he⟩ := List.mem_flatMap.mp he
  obtain ⟨p, hp, hpe⟩ := List.mem_map.mp he
  rw [← hpe]
  exact idx_lt n i p (List.mem_range.mp hi) (List.mem_range.mp hp)

theorem linContribs2_keys_lt (n : Nat) (P : ℚ) : ∀ e ∈ linContribs2 n P, e.1 < n * n := by
  intro e he
  rw [linContribs2] at he
  obtain ⟨p, hp, he⟩ := List.mem_flatMap.mp he
  obtain ⟨i, hi, hie⟩ := List.mem_map.mp he
  rw [← hie]
  exact idx_lt n i p (List.mem_range.mp hi) (List.mem_range.mp hp)

theorem cost_map_sum (n : Nat) (d : Nat → Nat → ℚ) (x : Nat → ℚ) :
    ((costContribs n d).map fun e => e.2 * x e.1.1 * x e.1.2).sum = costValue n d x := by
  rw [costContribs, map_sum_flatMap, list_range_map_sum, costValue]
  refine Finset.sum_congr rfl fun i _ => ?_
  rw [map_sum_flatMap, list_range_map_sum]
  refine Finset.sum_congr rfl fun j _ => ?_
  by_cases hij : i = j
  · simp [hij]
  · rw [if_neg hij, if_neg hij, List.map_map, list_range_map_sum]
    exact Finset.sum_congr rfl fun p _ => rfl

theorem quad1_map_sum (n : Nat) (P : ℚ) (x : Nat → ℚ) :
    ((quadContribs1 n P).map fun e => e.2 * x e.1.1 * x e.1.2).sum =
      P * ∑ i ∈ Finset.range n,
        (∑ p ∈ Finset.range n, x (i * n + p)) * (∑ q ∈ Finset.range n, x (i * n + q)) := by
  rw [quadContribs1, map_sum_flatMap, list_range_map_sum, Finset.mul_sum]
  refine Finset.sum_congr rfl fun i _ => ?_
  rw [map_sum_flatMap, list_range_map_sum]
  rw [Finset.sum_mul_sum]
  rw [Finset.mul_sum]
  refine Finset.sum_congr rfl fun p _ => ?_
  rw [List.map_map, list_range_map_sum, Finset.mul_sum]
  refine Finset.sum_congr rfl fun q _ => ?_
  show P * x (get_variable_index n i p) * x (get_variable_index n i q) = _
  rw [get_variable_index, get_variable_index]
  ring

theorem quad2_map_sum (n : Nat) (P : ℚ) (x : Nat → ℚ) :
    ((quadContribs2 n P).map fun e => e.2 * x e.1.1 * x e.1.2).sum =
      P * ∑ p ∈ Finset.range n,
        (∑ i ∈ Finset.range n, x (i * n + p)) * (∑ j ∈ Finset.range n, x (j * n + p)) := by
  rw [quadContribs2, map_sum_flatMap, list_range_map_sum, Finset.mul_sum]
  refine Finset.sum_congr rfl fun p _ => ?_
  rw [map_sum_flatMap, list_range_map_sum]
  rw [Finset.sum_mul_sum]
  rw [Finset.mul_sum]
  refine Finset.sum_congr rfl fun i _ => ?_
  rw [List.map_map, list_range_map_sum, Finset.mul_sum]
  refine Finset.sum_congr rfl fun j _ => ?_
  show P * x (get_variable_index n i p) * x (get_variable_index n j p) = _
  rw [get_variable_index, get_variable_index]
  ring

theorem lin1_map_sum (n : Nat) (P : ℚ) (x : Nat → ℚ) :
    ((linContribs1 n P).map fun e => e.2 * x e.1).sum =
      -(2 * P) * ∑ i ∈ Finset.range n, ∑ p ∈ Finset.range n, x (i * n + p) := by
  rw [linContribs1, map_sum_flatMap, list_range_map_sum, Finset.mul_sum]
  refine Finset.sum_congr rfl fun i _ => ?_
  rw [List.map_map, list_range_map_sum, Finset.mul_sum]
  refine Finset.sum_congr rfl fun p _ => ?_
  show -(2 * P) * x (get_variable_index n i p) = _
  rw [get_variable_index]

theorem lin2_map_sum (n : Nat) (P : ℚ) (x : Nat → ℚ) :
    ((linContribs2 n P).map fun e => e.2 * x e.1).sum =
      -(2 * P) * ∑ p ∈ Finset.range n, ∑ i ∈ Finset.range n, x (i * n + p) := by
  rw [linContribs2, map_sum_flatMap, list_range_map_sum, Finset.mul_sum]
  refine Finset.sum_congr rfl fun p _ => ?_
  rw [List.map_map, list_range_map_sum, Finset.mul_sum]
  refine Finset.sum_congr rfl fun i _ => ?_
  show -(2 * P) * x (get_variable_index n i p) = _
  rw [get_variable_index]

/-- The final linear coefficient stored for any variable equals the sum of the
two penalty families' linear contributions to it. -/
theorem linear_final_eq_contrib_sum (f : TSPQUBOFormulation) (a : Nat) :
    dget0 (create_qubo f).linear a =
      sumAt (linContribs1 f.n f.penalty ++ linContribs2 f.n f.penalty) a := by
  have h : (create_qubo f).linear =
      dupdate dempty
        ((linContribs1 f.n f.penalty ++ linContribs2 f.n f.penalty).foldl
          (fun d e => daccum d e.1 e.2) dempty) := rfl
  rw [h, dget0_dupdate_dempty]
  have hacc := dget0_foldl_daccum
    (linContribs1 f.n f.penalty ++ linContribs2 f.n f.penalty) dempty a
  rw [show dget0 (dempty : Dict Nat ℚ) a = 0 from rfl] at hacc
  rw [hacc]
  ring

/-- The QUBO energy of any assignment whose row and column sums are all 1:
all penalty contributions (the constant included) cancel and only the cost
contribution remains. -/
theorem energy_permutation_general (n : Nat) (hn : 2 ≤ n) (dm : List (List ℚ)) (P : ℚ)
    (x : Nat → ℚ)
    (hrowx : ∀ i ∈ Finset.range n, ∑ p ∈ Finset.range n, x (i * n + p) = 1)
    (hcolx : ∀ p ∈ Finset.range n, ∑ i ∈ Finset.range n, x (i * n + p) = 1) :
    Qenergy (create_qubo ⟨dm, n, P⟩) (n * n) x = costValue n (dmGet dm) x := by
  rw [Qenergy]
  have hconst : (create_qubo ⟨dm, n, P⟩ : QuadraticProgram).constant = 2 * (n : ℚ) * P := rfl
  have hlin : ∑ a ∈ Finset.range (n * n), dget0 (create_qubo ⟨dm, n, P⟩).linear a * x a =
      -(2 * P) * (∑ i ∈ Finset.range n, ∑ p ∈ Finset.range n, x (i * n + p))
        + -(2 * P) * (∑ p ∈ Finset.range n, ∑ i ∈ Finset.range n, x (i * n + p)) := by
    have h1 : ∑ a ∈ Finset.range (n * n), dget0 (create_qubo ⟨dm, n, P⟩).linear a * x a =
        ∑ a ∈ Finset.range (n * n), sumAt (linContribs1 n P ++ linContribs2 n P) a * x a :=
      Finset.sum_congr rfl fun a _ => by
        rw [linear_final_eq_contrib_sum ⟨dm, n, P⟩ a]
    rw [h1, sum_range_sumAt_linear (n * n) _ x ?hk]
    case hk =>
      intro e he
      rcases List.mem_append.mp he with h | h
      · exact linContribs1_keys_lt n P e h
      · exact linContribs2_keys_lt n P e h
    rw [List.map_append, List.sum_append, lin1_map_sum, lin2_map_sum]
  have hquad : ∑ a ∈ Finset.range (n * n), ∑ b ∈ Finset.range (n * n),
      dget0 (create_qubo ⟨dm, n, P⟩).quadratic (a, b) * x a * x b =
      costValue n (dmGet dm) x
        + P * (∑ i ∈ Finset.range n,
            (∑ p ∈ Finset.range n, x (i * n + p)) * (∑ q ∈ Finset.range n, x (i * n + q)))
        + P * (∑ p ∈ Finset.range n,
            (∑ i ∈ Finset.range n, x (i * n + p)) * (∑ j ∈ Finset.range n, x (j * n + p))) := by
    have h1 : ∑ a ∈ Finset.range (n * n), ∑ b ∈ Finset.range (n * n),
        dget0 (create_qubo ⟨dm, n, P⟩).quadratic (a, b) * x a * x b =
        ∑ a ∈ Finset.range (n * n), ∑ b ∈ Finset.range (n * n),
          sumAt (costContribs n (dmGet dm) ++ (quadContribs1 n P ++ quadContribs2 n P))
            (a, b) * x a * x b :=
      Finset.sum_congr rfl fun a _ => Finset.sum_congr rfl fun b _ => by
        rw [quadratic_final_eq_contrib_sum ⟨dm, n, P⟩ hn (a, b)]
    rw [h1, sum_range_sumAt_quadratic (n * n) _ x ?hk2]
    case hk2 =>
      intro e he
      rcases List.mem_append.mp he with h | h
      · exact costContribs_keys_lt n (dmGet dm) e h
      · rcases List.mem_append.mp h with h' | h'
        · exact quadContribs1_keys_lt n P e h'
        · exact quadContribs2_keys_lt n P e h'
    rw [List.map_append, List.sum_append, List.map_append, List.sum_append,
      cost_map_sum, quad1_map_sum, quad2_map_sum]
    ring
  rw [hconst, hlin, hquad]
  have hA : ∑ i ∈ Finset.range n, ∑ p ∈ Finset.range n, x (i * n + p) = (n : ℚ) := by
    rw [Finset.sum_congr rfl hrowx]
    simp
  have hB : ∑ p ∈ Finset.range n, ∑ i ∈ Finset.range n, x (i * n + p) = (n : ℚ) := by
    rw [Finset.sum_congr rfl hcolx]
    simp
  have hC : ∑ i ∈ Finset.range n,
      (∑ p ∈ Finset.range n, x (i * n + p)) * (∑ q ∈ Finset.range n, x (i * n + q)) =
      (n : ℚ) := by
    rw [Finset.sum_congr rfl fun i hi => by rw [hrowx i hi, one_mul]]
    simp
  have hD : ∑ p ∈ Finset.range n,
      (∑ i ∈ Finset.range n, x (i * n + p)) * (∑ j ∈ Finset.range n, x (j * n + p)) =
      (n : ℚ) := by
    rw [Finset.sum_congr rfl fun p hp => by rw [hcolx p hp, one_mul]]
    simp
  rw [hA, hB, hC, hD]
  ring

/-- **C2** (amended): for every distance matrix stored with `n ≥ 2` and any
penalty, the energy of a permutation bitstring (all row and column sums 1)
under the built QUBO equals the pure cost contribution alone — every penalty
contribution, the `2 * n * penalty` constant included, cancels to zero. -/
theorem c2_amended_energy_eq_cost (n : Nat) (hn : 2 ≤ n) (dm : List (List ℚ)) (P : ℚ)
    (bits : List Nat) (hlen : bits.length = n * n)
    (hrow : ∀ i < n, rowSum bits n i = 1)
    (hcol : ∀ p < n, colSum bits n p = 1) :
    Qenergy (create_qubo ⟨dm, n, P⟩) (n * n) (fun a => ((bits.getD a 0 : Nat) : ℚ)) =
      costValue n (dmGet dm) (fun a => ((bits.getD a 0 : Nat) : ℚ)) := by
  refine energy_permutation_general n hn dm P _ ?_ ?_
  · intro i hi
    have h := hrow i (Finset.mem_range.mp hi)
    rw [rowSum] at h
    have hc : ((∑ p ∈ Finset.range n, bitAt bits n i p : Nat) : ℚ) = 1 := by
      rw [h]
      norm_num
    rw [Nat.cast_sum] at hc
    exact hc
  · intro p hp
    have h := hcol p (Finset.mem_range.mp hp)
    rw [colSum] at h
    have hc : ((∑ i ∈ Finset.range n, bitAt bits n i p : Nat) : ℚ) = 1 := by
      rw [h]
      norm_num
    rw [Nat.cast_sum] at hc
    exact hc

theorem c2_amended_energy_eq_cost_witness :
    (2 ≤ 2 ∧ ([1, 0, 0, 1] : List Nat).length = 2 * 2 ∧
      (∀ i < 2, rowSum [1, 0, 0, 1] 2 i = 1) ∧
      (∀ p < 2, colSum [1, 0, 0, 1] 2 p = 1)) ∧
    Qenergy (create_qubo ⟨[[0, 1], [1, 0]], 2, 4⟩) (2 * 2)
        (fun a => ((([1, 0, 0, 1] : List Nat).getD a 0 : Nat) : ℚ)) =
      costValue 2 (dmGet [[0, 1], [1, 0]])
        (fun a => ((([1, 0, 0, 1] : List Nat).getD a 0 : Nat) : ℚ)) :=
  ⟨⟨by norm_num, by decide, by decide, by decide⟩,
    c2_amended_energy_eq_cost 2 (by norm_num) [[0, 1], [1, 0]] 4 [1, 0, 0, 1]
      (by decide) (by decide) (by decide)⟩

/-- **C2** (counterexample): for the fixed 3-city example
`[[0,1,2],[1,0,3],[2,3,0]]` (auto penalty `2*3*3 = 18`) and the identity
permutation bitstring `100010001`, the QUBO energy is `6` — the pure cost
contribution — while the claimed value `constant + cost = 108 + 6 = 114`
differs: the energy does not equal the constant plus the cost contribution. -/
theorem c2_energy_constant_counterexample :
    tspInit [[0, 1, 2], [1, 0, 3], [2, 3, 0]] none =
      .ok ⟨[[0, 1, 2], [1, 0, 3], [2, 3, 0]], 3, 18⟩ ∧
    Qenergy (create_qubo ⟨[[0, 1, 2], [1, 0, 3], [2, 3, 0]], 3, 18⟩) (3 * 3)
        (fun a => ((([1, 0, 0, 0, 1, 0, 0, 0, 1] : List Nat).getD a 0 : Nat) : ℚ)) = 6 ∧
    (create_qubo ⟨[[0, 1, 2], [1, 0, 3], [2, 3, 0]], 3, 18⟩).constant = 108 ∧
    costValue 3 (dmGet [[0, 1, 2], [1, 0, 3], [2, 3, 0]])
        (fun a => ((([1, 0, 0, 0, 1, 0, 0, 0, 1] : List Nat).getD a 0 : Nat) : ℚ)) = 6 ∧
    (6 : ℚ) ≠ 108 + 6 := by
  have hcost : costValue 3 (dmGet [[0, 1, 2], [1, 0, 3], [2, 3, 0]])
      (fun a => ((([1, 0, 0, 0, 1, 0, 0, 0, 1] : List Nat).getD a 0 : Nat) : ℚ)) = 6 := by
    norm_num [costValue, get_variable_index, dmGet, Finset.sum_range_succ,
      Finset.sum_range_zero, List.getD_cons_succ, List.getD_cons_zero]
  have henergy : Qenergy (create_qubo ⟨[[0, 1, 2], [1, 0, 3], [2, 3, 0]], 3, 18⟩) (3 * 3)
      (fun a => ((([1, 0, 0, 0, 1, 0, 0, 0, 1] : List Nat).getD a 0 : Nat) : ℚ)) = 6 := by
    rw [energy_permutation_general 3 (by norm_num) [[0, 1, 2], [1, 0, 3], [2, 3, 0]] 18 _
      ?hr ?hc, hcost]
    case hr =>
      intro i hi
      fin_cases hi <;>
        norm_num [Finset.sum_range_succ, Finset.sum_range_zero, List.getD_cons_succ,
          List.getD_cons_zero]
    case hc =>
      intro p hp
      fin_cases hp <;>
        norm_num [Finset.sum_range_succ, Finset.sum_range_zero, List.getD_cons_succ,
          List.getD_cons_zero]
  refine ⟨by norm_num [tspInit, npMax, dmElems], henergy,
    show (2 * ((3 : Nat) : ℚ) * 18) = 108 by norm_num, hcost, by norm_num⟩
